import Mathlib

/-!
Verification of the workspace path-sandboxing and file-visibility policy
implemented in backend/utils/files_utils.py.

Paths are modelled as lists of characters (Python strings).  The Python
standard-library path helpers used by the source (posixpath.isabs, join,
normpath, relpath, basename, dirname, splitext) are embedded from the
CPython implementations.  The backend runs on a POSIX host, so os.path is
posixpath.  relpath is embedded for absolute arguments, replacing the
internal abspath calls by normpath, which is what abspath is on absolute
inputs; the guard only reaches relpath with absolute strings whenever the
configured workspace root is absolute, which is an invariant of the data
model.  The ValueError raises of the guard are modelled as an error type
with one constructor per raise site.
-/

set_option autoImplicit false
set_option maxRecDepth 4000

namespace FilesUtils

/-- Python posixpath.isabs: a path is absolute iff it starts with a slash. -/
def isabs (p : List Char) : Bool := ['/'].isPrefixOf p

/-- Python str.lstrip applied with the single character slash. -/
def lstripSlashes (p : List Char) : List Char := p.dropWhile (fun c => c = '/')

/-- Python posixpath.join restricted to two arguments, as called by the guard. -/
def posix_join (a b : List Char) : List Char :=
  if isabs b then b
  else if a = [] ∨ a.getLast? = some '/' then a ++ b
  else a ++ '/' :: b

/-- Python str.split on the slash separator. -/
def splitSl : List Char → List (List Char)
  | [] => [[]]
  | c :: cs =>
    let r := splitSl cs
    if c = '/' then [] :: r
    else (c :: r.headI) :: r.tail

/-- Python str.join with the slash separator. -/
def joinSl (segs : List (List Char)) : List Char := List.intercalate ['/'] segs

/-- Number of initial slashes kept by posixpath.normpath: one, or exactly two
when the path starts with two but not three slashes (POSIX special case). -/
def slashCount (p : List Char) : Nat :=
  if isabs p then
    (if ['/', '/'].isPrefixOf p ∧ ¬ ['/', '/', '/'].isPrefixOf p then 2 else 1)
  else 0

/-- The component loop of posixpath.normpath.  The accumulator holds the
components already kept, most recent first (the Python list reversed, so that
append and pop act on the head). -/
def norm_acc (hasRoot : Bool) : List (List Char) → List (List Char) → List (List Char)
  | acc, [] => acc
  | acc, comp :: comps =>
    if comp = [] ∨ comp = ['.'] then norm_acc hasRoot acc comps
    else if comp ≠ ['.', '.'] ∨ (hasRoot = false ∧ acc = []) ∨ acc.headI = ['.', '.'] then
      norm_acc hasRoot (comp :: acc) comps
    else norm_acc hasRoot acc.tail comps

/-- Python posixpath.normpath: collapse empty, dot and dot-dot components
lexically, preserving the initial slash count (one or two). -/
def normpath (p : List Char) : List Char :=
  if p = [] then ['.']
  else
    let k := slashCount p
    let comps := (norm_acc (decide (k ≠ 0)) [] (splitSl p)).reverse
    let out := List.replicate k '/' ++ joinSl comps
    if out = [] then ['.'] else out

/-- The nonempty slash-separated components of the normalized form of a path,
as computed inside posixpath.relpath. -/
def filteredSegs (p : List Char) : List (List Char) :=
  (splitSl (normpath p)).filter (fun s => !s.isEmpty)

/-- Length of the longest common prefix of two component lists
(os.path.commonprefix on lists). -/
def commonPrefixLen : List (List Char) → List (List Char) → Nat
  | a :: as, b :: bs => if a = b then commonPrefixLen as bs + 1 else 0
  | _, _ => 0

/-- Python posixpath.relpath for absolute arguments. -/
def relpath (p start : List Char) : List Char :=
  let psegs := filteredSegs p
  let ssegs := filteredSegs start
  let i := commonPrefixLen ssegs psegs
  let rel := List.replicate (ssegs.length - i) ['.', '.'] ++ psegs.drop i
  if rel = [] then ['.'] else joinSl rel

/-- The hardcoded legacy prefix stripped by clean_path. -/
def wsLit : List Char := (r"workspace/".data)

/-- clean_path from files_utils.py: strip leading slashes, the root's own
stripped prefix, the literal legacy prefix (by dropping nine characters),
and remaining leading slashes. -/
def clean_path (path workspace_path : List Char) : List Char :=
  let p1 := lstripSlashes path
  let ws := lstripSlashes workspace_path
  let p2 := if ws.isPrefixOf p1 then p1.drop ws.length else p1
  let p3 := if wsLit.isPrefixOf p2 then p2.drop 9 else p2
  lstripSlashes p3

/-- The two ValueError raise sites of enforce_workspace_path, identified by
their reason.  The logging around each raise is swallowed by the source and
has no effect on the result. -/
inductive PathEscape where
  | absolute_path_outside_workspace
  | resolved_path_outside_workspace
deriving DecidableEq

/-- enforce_workspace_path from files_utils.py. -/
def enforce_workspace_path (path workspace_path : List Char) :
    Except PathEscape (List Char) :=
  if isabs path ∧ ¬ workspace_path.isPrefixOf path then
    .error .absolute_path_outside_workspace
  else
    let cleaned_path := clean_path path workspace_path
    let full_path := posix_join workspace_path cleaned_path
    let normalized_path := normpath full_path
    if ¬ workspace_path.isPrefixOf normalized_path then
      .error .resolved_path_outside_workspace
    else
      let relative_path := relpath normalized_path workspace_path
      if relative_path = ['.'] then .ok [] else .ok relative_path

/-- Python substring membership test (the in operator on strings). -/
def inStr (needle : List Char) : List Char → Bool
  | [] => needle.isPrefixOf []
  | c :: rest => needle.isPrefixOf (c :: rest) || inStr needle rest

/-- Python posixpath.basename: everything after the last slash. -/
def basename (p : List Char) : List Char :=
  (p.reverse.takeWhile (fun c => c ≠ '/')).reverse

/-- Python posixpath.dirname: everything before the last slash, with trailing
slashes stripped unless the head is all slashes. -/
def dirname (p : List Char) : List Char :=
  let head := (p.reverse.dropWhile (fun c => c ≠ '/')).reverse
  if head ≠ [] ∧ ¬ head.all (fun c => c = '/') then
    (head.reverse.dropWhile (fun c => c = '/')).reverse
  else head

/-- The extension part of Python posixpath.splitext: from the last dot of the
final component, provided some earlier character of that component is not a
dot (leading dots do not start an extension). -/
def splitext_ext (p : List Char) : List Char :=
  let base := basename p
  let revBase := base.reverse
  if base.contains '.' then
    let afterDot := revBase.takeWhile (fun c => c ≠ '.')
    let beforeDot := ((revBase.dropWhile (fun c => c ≠ '.')).tail).reverse
    if beforeDot.all (fun c => c = '.') then [] else '.' :: afterDot.reverse
  else []

/-- EXCLUDED_FILES from files_utils.py. -/
def EXCLUDED_FILES : List (List Char) :=
  [(r".DS_Store".data), (r".gitignore".data), (r"package-lock.json".data),
   (r"postcss.config.js".data), (r"postcss.config.mjs".data),
   (r"jsconfig.json".data), (r"components.json".data),
   (r"tsconfig.tsbuildinfo".data), (r"tsconfig.json".data)]

/-- EXCLUDED_DIRS from files_utils.py. -/
def EXCLUDED_DIRS : List (List Char) :=
  [(r"node_modules".data), (r".next".data), (r"dist".data),
   (r"build".data), (r".git".data)]

/-- EXCLUDED_EXT from files_utils.py. -/
def EXCLUDED_EXT : List (List Char) :=
  [(r".ico".data), (r".svg".data), (r".png".data), (r".jpg".data),
   (r".jpeg".data), (r".gif".data), (r".bmp".data), (r".tiff".data),
   (r".webp".data), (r".db".data), (r".sql".data)]

/-- The filename rule of should_exclude_file: the final path segment equals an
excluded filename exactly. -/
def filename_excluded (rel_path : List Char) : Bool :=
  EXCLUDED_FILES.contains (basename rel_path)

/-- The directory rule of should_exclude_file: the directory portion contains
an excluded directory token as a substring. -/
def dir_excluded (rel_path : List Char) : Bool :=
  EXCLUDED_DIRS.any (fun d => inStr d (dirname rel_path))

/-- The extension rule of should_exclude_file: the lowercased extension is in
the excluded extension set. -/
def ext_excluded (rel_path : List Char) : Bool :=
  EXCLUDED_EXT.contains ((splitext_ext (basename rel_path)).map Char.toLower)

/-- should_exclude_file from files_utils.py: the three rules checked in
order, returning at the first match. -/
def should_exclude_file (rel_path : List Char) : Bool :=
  if filename_excluded rel_path then true
  else if dir_excluded rel_path then true
  else if ext_excluded rel_path then true
  else false

/-- Containment in the sense of the specification: joining the root with a
relative path and resolving lexically lands on the root itself or strictly
below it (root followed by a separator). -/
def resolves_within (root rel : List Char) : Bool :=
  (normpath (posix_join root rel) == root) ||
    (root ++ ['/']).isPrefixOf (normpath (posix_join root rel))

/-- Modelled from the spec: the normalizer pipeline exactly as the
specification words it, with the literal legacy prefix stripped as its full
ten characters instead of the nine dropped by the source. -/
def normalize_spec (path workspace_path : List Char) : List Char :=
  let p1 := lstripSlashes path
  let ws := lstripSlashes workspace_path
  let p2 := if ws.isPrefixOf p1 then p1.drop ws.length else p1
  let p3 := if wsLit.isPrefixOf p2 then p2.drop 10 else p2
  lstripSlashes p3

/-- A path component kept verbatim by the normpath loop: nonempty, not the
single dot, not the double dot. -/
def goodSeg (s : List Char) : Prop := s ≠ [] ∧ s ≠ ['.'] ∧ s ≠ ['.', '.']

instance goodSegDecidable (s : List Char) : Decidable (goodSeg s) :=
  inferInstanceAs (Decidable (s ≠ [] ∧ s ≠ ['.'] ∧ s ≠ ['.', '.']))

/-- Well-formed workspace root per the data model: an absolute directory
path in canonical (normpath-fixed) form. -/
def wfRoot (root : List Char) : Prop := isabs root = true ∧ normpath root = root

lemma lstrip_drop_nine_eq_drop_ten (q : List Char) :
    lstripSlashes (if wsLit.isPrefixOf q then q.drop 9 else q) =
    lstripSlashes (if wsLit.isPrefixOf q then q.drop 10 else q) := by
  by_cases hp : wsLit.isPrefixOf q = true
  · rw [if_pos hp, if_pos hp]
    obtain ⟨t, ht⟩ := List.isPrefixOf_iff_prefix.mp hp
    rw [← ht]
    rfl
  · rw [if_neg hp, if_neg hp]

/-- C1: the claim states that whenever the guard returns, the returned
relative path resolves, joined to the root, to the root or strictly inside
it.  The code violates this: on input dot-dot-workspacefoo with root
slash-workspace the guard returns successfully, yet the returned path
resolves to slash-workspacefoo, a sibling of the root, because the guard
compares with a plain string-prefix test instead of requiring a separator
after the root.  The theorem exhibits the violating run of the code. -/
theorem C1_guard_containment_code_bug :
    enforce_workspace_path (r"../workspacefoo".data) (r"/workspace".data) =
      .ok (r"../workspacefoo".data) ∧
    resolves_within (r"/workspace".data) (r"../workspacefoo".data) = false ∧
    normpath (posix_join (r"/workspace".data) (r"../workspacefoo".data)) =
      (r"/workspacefoo".data) :=
  ⟨rfl, rfl, rfl⟩

/-- C2: an input that is syntactically absolute on the host (leading slash)
and does not start with the root string is rejected immediately by the first
check of the guard, with the absolute-path reason. -/
theorem C2_absolute_fast_reject (p root : List Char) (h1 : isabs p = true)
    (h2 : root.isPrefixOf p = false) :
    enforce_workspace_path p root = .error .absolute_path_outside_workspace := by
  unfold enforce_workspace_path
  rw [if_pos ⟨h1, by simp [h2]⟩]

/-- Witness for C2 at the concrete input of the claim. -/
theorem C2_absolute_fast_reject_witness :
    enforce_workspace_path (r"/etc/passwd".data) (r"/workspace".data) =
      .error .absolute_path_outside_workspace :=
  C2_absolute_fast_reject (r"/etc/passwd".data) (r"/workspace".data) rfl rfl

/-- C3: the root-prefix stripping of clean_path is not segment-aware: a
first segment that strictly extends the stripped root name is rewritten, and
a sibling directory of the root is accepted and remapped by the guard. -/
theorem C3_prefix_strip_not_segment_aware :
    clean_path (r"workspacefoo/bar.txt".data) (r"/workspace".data) =
      (r"foo/bar.txt".data) ∧
    enforce_workspace_path (r"/workspace-evil/x.txt".data) (r"/workspace".data) =
      .ok (r"-evil/x.txt".data) :=
  ⟨rfl, rfl⟩

/-- C7: should_exclude_file is logically the disjunction of its three
independent rules, and the five concrete examples of the claim hold,
including the substring over-exclusion one. -/
theorem C7_visibility_filter_characterization :
    (∀ p : List Char, should_exclude_file p =
      (filename_excluded p || dir_excluded p || ext_excluded p)) ∧
    should_exclude_file (r"src/node_modules/x.js".data) = true ∧
    should_exclude_file (r"README.md".data) = false ∧
    should_exclude_file (r"package-lock.json".data) = true ∧
    should_exclude_file (r"assets/logo.png".data) = true ∧
    should_exclude_file (r"a/b/not_node_modules_really/x.py".data) = true := by
  refine ⟨fun p => ?_, rfl, rfl, rfl, rfl, rfl⟩
  cases hf : filename_excluded p <;> cases hd : dir_excluded p <;>
    cases he : ext_excluded p <;> simp [should_exclude_file, hf, hd, he]

/-- C8 counterexample: the claim says Windows-style drive-letter absolute
inputs not under the root make the guard fail, but the code runs posixpath
on a POSIX host, does not recognize them as absolute, and accepts them as
relative paths nested under the workspace. -/
theorem C8_windows_absolute_counterexample :
    enforce_workspace_path (r"C:/etc/passwd".data) (r"/workspace".data) =
      .ok (r"C:/etc/passwd".data) ∧
    enforce_workspace_path (r"C:\etc\passwd".data) (r"/workspace".data) =
      .ok (r"C:\etc\passwd".data) :=
  ⟨rfl, rfl⟩

/-- C8 amended: the absolute-path detection of the guard is POSIX-only.  An
input without a leading slash is never rejected by the absolute-path check,
whatever its Windows-style shape; drive-letter inputs are treated as
relative and accepted under the workspace. -/
theorem C8_posix_only_detection_amended :
    (∀ p root : List Char, isabs p = false →
      enforce_workspace_path p root ≠ .error .absolute_path_outside_workspace) ∧
    enforce_workspace_path (r"C:/etc/passwd".data) (r"/workspace".data) =
      .ok (r"C:/etc/passwd".data) := by
  refine ⟨fun p root h => ?_, rfl⟩
  unfold enforce_workspace_path
  rw [if_neg (by simp [h])]
  dsimp only
  split
  · intro hc
    injection hc with hc2
    exact PathEscape.noConfusion hc2
  · split <;> intro hc <;> exact Except.noConfusion hc

/-- Witness for the amended C8 at a concrete relative input. -/
theorem C8_posix_only_detection_amended_witness :
    enforce_workspace_path (r"x.txt".data) (r"/workspace".data) ≠
      .error .absolute_path_outside_workspace :=
  C8_posix_only_detection_amended.1 (r"x.txt".data) (r"/workspace".data) rfl

/-- C9: clean_path realizes exactly the four-step pipeline worded by the
specification (the nine-character drop of the source composed with the final
slash strip equals the ten-character strip of the spec), and the concrete
scenarios of the claim hold. -/
theorem C9_normalizer_behavior :
    (∀ p ws : List Char, clean_path p ws = normalize_spec p ws) ∧
    clean_path (r"/workspace/foo/bar.txt".data) (r"/workspace".data) =
      (r"foo/bar.txt".data) ∧
    clean_path (r"workspace/foo/bar.txt".data) (r"/workspace".data) =
      (r"foo/bar.txt".data) ∧
    enforce_workspace_path (r"foo/../../bar.txt".data) (r"/workspace".data) =
      .error .resolved_path_outside_workspace := by
  refine ⟨fun p ws => ?_, rfl, rfl, rfl⟩
  unfold clean_path normalize_spec
  exact lstrip_drop_nine_eq_drop_ten _

/-- No excluded directory token is also an excluded filename. -/
lemma excluded_dirs_not_files (x : List Char) (hx : x ∈ EXCLUDED_DIRS) :
    EXCLUDED_FILES.contains x = false := by
  simp only [EXCLUDED_DIRS, List.mem_cons, List.not_mem_nil, or_false] at hx
  rcases hx with h | h | h | h | h <;> subst h <;> rfl

/-- C10: the directory-token rule never applies to the final segment: a bare
path equal to an excluded directory name, with empty directory portion and a
non-excluded extension, is not excluded. -/
theorem C10_dir_tokens_not_final_segment :
    (∀ p : List Char, dirname p = [] → basename p ∈ EXCLUDED_DIRS →
      ext_excluded p = false → should_exclude_file p = false) ∧
    should_exclude_file (r"node_modules".data) = false ∧
    should_exclude_file (r".git".data) = false := by
  refine ⟨fun p hdir hmem hext => ?_, rfl, rfl⟩
  have hf : filename_excluded p = false := by
    unfold filename_excluded
    exact excluded_dirs_not_files (basename p) hmem
  have hd : dir_excluded p = false := by
    unfold dir_excluded
    rw [hdir]
    rfl
  simp [should_exclude_file, hf, hd, hext]

/-- Witness for C10 at the bare node_modules path. -/
theorem C10_dir_tokens_not_final_segment_witness :
    should_exclude_file (r"node_modules".data) = false :=
  C10_dir_tokens_not_final_segment.1 (r"node_modules".data) rfl
    (by decide) rfl

/-- C4 counterexample: idempotence of the guard fails.  The guard maps
dot-slash-workspacefoo to workspacefoo, but feeding that result back through
the guard strips the root name prefix again and yields foo. -/
theorem C4_idempotence_counterexample :
    enforce_workspace_path (r"./workspacefoo".data) (r"/workspace".data) =
      .ok (r"workspacefoo".data) ∧
    enforce_workspace_path (r"workspacefoo".data) (r"/workspace".data) =
      .ok (r"foo".data) :=
  ⟨rfl, rfl⟩

/-- C5 counterexample: the guard and the normalizer disagree on relative
paths without dot-dot segments that contain single-dot or empty segments:
the guard resolves them away while clean_path keeps them verbatim. -/
theorem C5_agreement_counterexample :
    (enforce_workspace_path (r"./foo".data) (r"/workspace".data) =
        .ok (r"foo".data) ∧
      clean_path (r"./foo".data) (r"/workspace".data) = (r"./foo".data)) ∧
    (enforce_workspace_path (r"foo//bar".data) (r"/workspace".data) =
        .ok (r"foo/bar".data) ∧
      clean_path (r"foo//bar".data) (r"/workspace".data) = (r"foo//bar".data)) :=
  ⟨⟨rfl, rfl⟩, ⟨rfl, rfl⟩⟩

/-- C6 counterexample: with a root carrying a trailing slash (an absolute
directory path the claim quantifies over), the empty input is rejected
instead of denoting the root, because the normalized absolute path lacks the
trailing slash of the root string. -/
theorem C6_root_self_counterexample :
    enforce_workspace_path ([] : List Char) (r"/workspace/".data) =
      .error .resolved_path_outside_workspace :=
  rfl

section SplitJoin

lemma splitSl_nil : splitSl [] = [[]] := rfl

lemma splitSl_cons (c : Char) (cs : List Char) :
    splitSl (c :: cs) = if c = '/' then [] :: splitSl cs
      else (c :: (splitSl cs).headI) :: (splitSl cs).tail := rfl

lemma splitSl_slash (cs : List Char) : splitSl ('/' :: cs) = [] :: splitSl cs := by
  rw [splitSl_cons, if_pos rfl]

lemma splitSl_other (c : Char) (cs : List Char) (h : c ≠ '/') :
    splitSl (c :: cs) = (c :: (splitSl cs).headI) :: (splitSl cs).tail := by
  rw [splitSl_cons, if_neg h]

lemma splitSl_ne_nil (l : List Char) : splitSl l ≠ [] := by
  cases l with
  | nil => simp [splitSl_nil]
  | cons c cs => rw [splitSl_cons]; split <;> simp

lemma splitSl_append_slash (a b : List Char) :
    splitSl (a ++ '/' :: b) = splitSl a ++ splitSl b := by
  induction a with
  | nil => rw [List.nil_append, splitSl_slash, splitSl_nil]; rfl
  | cons c cs ih =>
    by_cases hc : c = '/'
    · subst hc
      rw [List.cons_append, splitSl_slash, splitSl_slash, ih]
      rfl
    · cases hsc : splitSl cs with
      | nil => exact absurd hsc (splitSl_ne_nil cs)
      | cons h0 t0 =>
        rw [List.cons_append, splitSl_other c _ hc, splitSl_other c cs hc, ih, hsc]
        simp

lemma splitSl_replicate_slash (k : Nat) (b : List Char) :
    splitSl (List.replicate k '/' ++ b) = List.replicate k [] ++ splitSl b := by
  induction k with
  | zero => rfl
  | succ n ih =>
    rw [List.replicate_succ, List.cons_append, splitSl_slash, ih, List.replicate_succ,
      List.cons_append]

lemma splitSl_no_slash (l : List Char) : ∀ s ∈ splitSl l, '/' ∉ s := by
  induction l with
  | nil => intro s hs; rw [splitSl_nil] at hs; simp at hs; simp [hs]
  | cons c cs ih =>
    intro s hs
    by_cases hc : c = '/'
    · subst hc
      rw [splitSl_slash] at hs
      rcases List.mem_cons.mp hs with h | h
      · simp [h]
      · exact ih s h
    · cases hsc : splitSl cs with
      | nil => exact absurd hsc (splitSl_ne_nil cs)
      | cons h0 t0 =>
        rw [splitSl_other c cs hc, hsc] at hs
        rcases List.mem_cons.mp hs with h | h
        · subst h
          intro hmem
          rcases List.mem_cons.mp hmem with h | h
          · exact hc h.symm
          · exact ih h0 (by rw [hsc]; exact List.mem_cons_self h0 t0) h
        · exact ih s (by rw [hsc]; exact List.mem_cons_of_mem h0 h)

lemma joinSl_nil : joinSl [] = [] := rfl

lemma joinSl_one (s : List Char) : joinSl [s] = s := by
  simp [joinSl, List.intercalate]

lemma joinSl_cons2 (s t : List Char) (rest : List (List Char)) :
    joinSl (s :: t :: rest) = s ++ '/' :: joinSl (t :: rest) := by
  simp [joinSl, List.intercalate, List.intersperse]

lemma join_split (l : List Char) : joinSl (splitSl l) = l := by
  induction l with
  | nil => rw [splitSl_nil, joinSl_one]
  | cons c cs ih =>
    by_cases hc : c = '/'
    · subst hc
      rw [splitSl_slash]
      cases hsc : splitSl cs with
      | nil => exact absurd hsc (splitSl_ne_nil cs)
      | cons h0 t0 =>
        rw [joinSl_cons2, List.nil_append, ← hsc, ih]
    · cases hsc : splitSl cs with
      | nil => exact absurd hsc (splitSl_ne_nil cs)
      | cons h0 t0 =>
        rw [splitSl_other c cs hc, hsc]
        simp only [List.headI_cons, List.tail_cons]
        cases t0 with
        | nil =>
          rw [joinSl_one]
          have : joinSl (splitSl cs) = cs := ih
          rw [hsc, joinSl_one] at this
          simp [this]
        | cons t1 ts =>
          rw [joinSl_cons2]
          have : joinSl (splitSl cs) = cs := ih
          rw [hsc, joinSl_cons2] at this
          simp [this]

lemma splitSl_noslash_id (s : List Char) (h : '/' ∉ s) : splitSl s = [s] := by
  induction s with
  | nil => exact splitSl_nil
  | cons c cs ih =>
    have hc : c ≠ '/' := fun hcc => h (by rw [hcc]; exact List.mem_cons_self '/' cs)
    have hcs : splitSl cs = [cs] := ih (fun hm => h (List.mem_cons_of_mem c hm))
    rw [splitSl_other c cs hc, hcs]
    rfl

lemma split_join (segs : List (List Char)) (hne : segs ≠ [])
    (h : ∀ s ∈ segs, '/' ∉ s) : splitSl (joinSl segs) = segs := by
  induction segs with
  | nil => exact absurd rfl hne
  | cons s rest ih =>
    cases rest with
    | nil =>
      rw [joinSl_one]
      exact splitSl_noslash_id s (h s (List.mem_cons_self s []))
    | cons t ts =>
      rw [joinSl_cons2, splitSl_append_slash,
        splitSl_noslash_id s (h s (List.mem_cons_self s (t :: ts))),
        ih (by simp) (fun x hx => h x (List.mem_cons_of_mem s hx))]
      rfl

end SplitJoin

section NormLoop

lemma norm_acc_base (b : Bool) (acc : List (List Char)) : norm_acc b acc [] = acc := rfl

lemma norm_acc_cons (b : Bool) (acc : List (List Char)) (comp : List Char)
    (comps : List (List Char)) :
    norm_acc b acc (comp :: comps) =
      if comp = [] ∨ comp = ['.'] then norm_acc b acc comps
      else if comp ≠ ['.', '.'] ∨ (b = false ∧ acc = []) ∨ acc.headI = ['.', '.'] then
        norm_acc b (comp :: acc) comps
      else norm_acc b acc.tail comps := rfl

lemma norm_acc_skip (b : Bool) (acc : List (List Char)) (comp : List Char)
    (comps : List (List Char)) (h : comp = [] ∨ comp = ['.']) :
    norm_acc b acc (comp :: comps) = norm_acc b acc comps := by
  rw [norm_acc_cons, if_pos h]

lemma norm_acc_push (b : Bool) (acc : List (List Char)) (comp : List Char)
    (comps : List (List Char)) (h1 : ¬ (comp = [] ∨ comp = ['.']))
    (h2 : comp ≠ ['.', '.'] ∨ (b = false ∧ acc = []) ∨ acc.headI = ['.', '.']) :
    norm_acc b acc (comp :: comps) = norm_acc b (comp :: acc) comps := by
  rw [norm_acc_cons, if_neg h1, if_pos h2]

lemma norm_acc_pop (b : Bool) (acc : List (List Char)) (comp : List Char)
    (comps : List (List Char)) (h1 : ¬ (comp = [] ∨ comp = ['.']))
    (h2 : ¬ (comp ≠ ['.', '.'] ∨ (b = false ∧ acc = []) ∨ acc.headI = ['.', '.'])) :
    norm_acc b acc (comp :: comps) = norm_acc b acc.tail comps := by
  rw [norm_acc_cons, if_neg h1, if_neg h2]

lemma norm_acc_append (b : Bool) (l1 l2 : List (List Char)) :
    ∀ acc, norm_acc b acc (l1 ++ l2) = norm_acc b (norm_acc b acc l1) l2 := by
  induction l1 with
  | nil => intro acc; rfl
  | cons comp comps ih =>
    intro acc
    rw [List.cons_append, norm_acc_cons, norm_acc_cons]
    split
    · exact ih acc
    · split
      · exact ih (comp :: acc)
      · exact ih acc.tail

lemma norm_acc_skip_empties (b : Bool) (k : Nat) (l : List (List Char)) :
    ∀ acc, norm_acc b acc (List.replicate k [] ++ l) = norm_acc b acc l := by
  induction k with
  | zero => intro acc; rfl
  | succ n ih =>
    intro acc
    rw [List.replicate_succ, List.cons_append, norm_acc_skip b acc [] _ (Or.inl rfl)]
    exact ih acc

lemma norm_acc_good (b : Bool) (cs : List (List Char)) (h : ∀ s ∈ cs, goodSeg s) :
    ∀ acc, norm_acc b acc cs = cs.reverse ++ acc := by
  induction cs with
  | nil => intro acc; rfl
  | cons comp comps ih =>
    intro acc
    obtain ⟨hne, hdot, hdd⟩ := h comp (List.mem_cons_self comp comps)
    rw [norm_acc_push b acc comp comps (by simp [hne, hdot]) (Or.inl hdd),
      ih (fun s hs => h s (List.mem_cons_of_mem comp hs)) (comp :: acc)]
    simp

lemma norm_acc_mem (b : Bool) (cs : List (List Char)) :
    ∀ acc s, s ∈ norm_acc b acc cs → s ∈ acc ∨ s ∈ cs := by
  induction cs with
  | nil => intro acc s hs; exact Or.inl hs
  | cons comp comps ih =>
    intro acc s hs
    rw [norm_acc_cons] at hs
    split at hs
    · rcases ih acc s hs with h | h
      · exact Or.inl h
      · exact Or.inr (List.mem_cons_of_mem comp h)
    · split at hs
      · rcases ih (comp :: acc) s hs with h | h
        · rcases List.mem_cons.mp h with h | h
          · exact Or.inr (by rw [h]; exact List.mem_cons_self comp comps)
          · exact Or.inl h
        · exact Or.inr (List.mem_cons_of_mem comp h)
      · rcases ih acc.tail s hs with h | h
        · cases acc with
          | nil => exact Or.inl h
          | cons a t => exact Or.inl (List.mem_cons_of_mem a h)
        · exact Or.inr (List.mem_cons_of_mem comp h)

lemma norm_acc_good_inv (cs : List (List Char)) :
    ∀ acc, (∀ s ∈ acc, goodSeg s) → ∀ s ∈ norm_acc true acc cs, goodSeg s := by
  induction cs with
  | nil => intro acc hacc s hs; exact hacc s hs
  | cons comp comps ih =>
    intro acc hacc s hs
    rw [norm_acc_cons] at hs
    split at hs
    · exact ih acc hacc s hs
    · rename_i hn1
      split at hs
      · rename_i hn2
        refine ih (comp :: acc) (fun x hx => ?_) s hs
        rcases List.mem_cons.mp hx with h | h
        · subst h
          refine ⟨fun he => hn1 (Or.inl he), fun hd => hn1 (Or.inr hd), fun hdd => ?_⟩
          rcases hn2 with h2 | h2 | h2
          · exact h2 hdd
          · exact absurd h2.1 (by simp)
          · cases hha : acc with
            | nil => rw [hha] at h2; simp [List.headI] at h2
            | cons a t =>
              rw [hha] at h2
              simp only [List.headI_cons] at h2
              exact (hacc a (by rw [hha]; exact List.mem_cons_self a t)).2.2 h2
        · exact hacc x h
      · refine ih acc.tail (fun x hx => ?_) s hs
        cases acc with
        | nil => exact hacc x hx
        | cons a t => exact hacc x (List.mem_cons_of_mem a hx)

end NormLoop

section Structure

lemma isabs_cons_ne (c : Char) (l : List Char) (hc : c ≠ '/') : isabs (c :: l) = false := by
  simp only [isabs, List.isPrefixOf, Bool.and_eq_false_iff, beq_eq_false_iff_ne, ne_eq]
  exact Or.inl (fun h => hc h.symm)

lemma isabs_joinSl (segs : List (List Char)) (h : ∀ s ∈ segs, s ≠ [] ∧ '/' ∉ s) :
    isabs (joinSl segs) = false := by
  cases segs with
  | nil => rfl
  | cons s rest =>
    obtain ⟨hne, hns⟩ := h s (List.mem_cons_self s rest)
    cases s with
    | nil => exact absurd rfl hne
    | cons c s2 =>
      have hc : c ≠ '/' := fun hcc => hns (by rw [hcc]; exact List.mem_cons_self '/' s2)
      cases rest with
      | nil => rw [joinSl_one]; exact isabs_cons_ne c s2 hc
      | cons t ts =>
        rw [joinSl_cons2, List.cons_append]
        exact isabs_cons_ne c _ hc

lemma isabs_slash (b : List Char) : isabs ('/' :: b) = true := by
  simp [isabs, List.isPrefixOf]

lemma slashCount_one (b : List Char) (hb : isabs b = false) : slashCount ('/' :: b) = 1 := by
  have h2 : (['/', '/'].isPrefixOf ('/' :: b)) = isabs b := by
    simp [isabs, List.isPrefixOf]
  unfold slashCount
  rw [if_pos (isabs_slash b), if_neg]
  intro hcon
  rw [h2, hb] at hcon
  exact absurd hcon.1 (by simp)

lemma slashCount_two (b : List Char) (hb : isabs b = false) :
    slashCount ('/' :: '/' :: b) = 2 := by
  have h3 : (['/', '/', '/'].isPrefixOf ('/' :: '/' :: b)) = isabs b := by
    simp [isabs, List.isPrefixOf]
  unfold slashCount
  rw [if_pos (isabs_slash _), if_pos]
  constructor
  · simp [List.isPrefixOf]
  · rw [h3, hb]; simp

lemma slashCount_repl (k : Nat) (b : List Char) (hk : k = 1 ∨ k = 2)
    (hb : isabs b = false) : slashCount (List.replicate k '/' ++ b) = k := by
  rcases hk with h | h <;> subst h
  · exact slashCount_one b hb
  · exact slashCount_two b hb

lemma normpath_eq (p : List Char) : normpath p =
    if p = [] then ['.']
    else if List.replicate (slashCount p) '/' ++
        joinSl ((norm_acc (decide (slashCount p ≠ 0)) [] (splitSl p)).reverse) = [] then ['.']
    else List.replicate (slashCount p) '/' ++
        joinSl ((norm_acc (decide (slashCount p ≠ 0)) [] (splitSl p)).reverse) := rfl

lemma slashCount_pos_of_abs (p : List Char) (hp : isabs p = true) : slashCount p ≠ 0 := by
  unfold slashCount
  rw [if_pos hp]
  split <;> simp

lemma normpath_abs_eq (p : List Char) (hp : isabs p = true) :
    normpath p = List.replicate (slashCount p) '/' ++
      joinSl ((norm_acc true [] (splitSl p)).reverse) := by
  have hpne : p ≠ [] := by
    intro h
    rw [h] at hp
    exact absurd hp (by simp [isabs, List.isPrefixOf])
  have hk := slashCount_pos_of_abs p hp
  have hd : (decide (slashCount p ≠ 0)) = true := by simp [hk]
  have hrep : List.replicate (slashCount p) '/' ≠ [] := by
    intro h
    exact hk (by simpa using h)
  rw [normpath_eq, if_neg hpne, hd, if_neg]
  intro h
  exact hrep (List.append_eq_nil.mp h).1

lemma normpath_fix (k : Nat) (segs : List (List Char)) (hk : k = 1 ∨ k = 2)
    (hs : ∀ s ∈ segs, goodSeg s ∧ '/' ∉ s) :
    normpath (List.replicate k '/' ++ joinSl segs) =
      List.replicate k '/' ++ joinSl segs := by
  have hb : isabs (joinSl segs) = false :=
    isabs_joinSl segs (fun s hsx => ⟨(hs s hsx).1.1, (hs s hsx).2⟩)
  have habs : isabs (List.replicate k '/' ++ joinSl segs) = true := by
    rcases hk with h | h <;> subst h
    · exact isabs_slash _
    · exact isabs_slash _
  have hsc : slashCount (List.replicate k '/' ++ joinSl segs) = k :=
    slashCount_repl k _ hk hb
  rw [normpath_abs_eq _ habs, hsc]
  congr 1
  rw [splitSl_replicate_slash, norm_acc_skip_empties]
  cases hsegs : segs with
  | nil => rw [joinSl_nil, splitSl_nil, norm_acc_skip true [] [] [] (Or.inl rfl)]; rfl
  | cons s rest =>
    rw [← hsegs, split_join segs (by rw [hsegs]; simp) (fun s hsx => (hs s hsx).2),
      norm_acc_good true segs (fun s hsx => (hs s hsx).1) [], List.append_nil,
      List.reverse_reverse]

lemma filter_empties (k : Nat) :
    List.filter (fun s : List Char => !s.isEmpty) (List.replicate k []) = [] := by
  induction k with
  | zero => rfl
  | succ n ih => rw [List.replicate_succ, List.filter_cons]; simp [ih]

lemma filteredSegs_structure (k : Nat) (segs : List (List Char)) (hk : k = 1 ∨ k = 2)
    (hs : ∀ s ∈ segs, goodSeg s ∧ '/' ∉ s) :
    filteredSegs (List.replicate k '/' ++ joinSl segs) = segs := by
  unfold filteredSegs
  rw [normpath_fix k segs hk hs, splitSl_replicate_slash, List.filter_append,
    filter_empties, List.nil_append]
  cases hsegs : segs with
  | nil => rw [joinSl_nil, splitSl_nil]; rfl
  | cons s rest =>
    rw [← hsegs, split_join segs (by rw [hsegs]; simp) (fun s hsx => (hs s hsx).2)]
    refine List.filter_eq_self.mpr (fun s hsx => ?_)
    have := (hs s hsx).1.1
    cases s with
    | nil => exact absurd rfl this
    | cons c cs => rfl

lemma commonPrefixLen_cons (a b : List Char) (as bs : List (List Char)) :
    commonPrefixLen (a :: as) (b :: bs) =
      if a = b then commonPrefixLen as bs + 1 else 0 := rfl

lemma commonPrefixLen_append (l m : List (List Char)) :
    commonPrefixLen l (l ++ m) = l.length := by
  induction l with
  | nil => rfl
  | cons a as ih => rw [List.cons_append, commonPrefixLen_cons, if_pos rfl, ih]; rfl

lemma commonPrefixLen_ext (dl : List (List Char)) (a b : List Char)
    (t : List (List Char)) (hab : a ≠ b) :
    commonPrefixLen (dl ++ [a]) (dl ++ b :: t) = dl.length := by
  induction dl with
  | nil => rw [List.nil_append, List.nil_append, commonPrefixLen_cons, if_neg hab]; rfl
  | cons d ds ih =>
    rw [List.cons_append, List.cons_append, commonPrefixLen_cons, if_pos rfl, ih]
    rfl

lemma relpath_eq (p start : List Char) : relpath p start =
    if List.replicate ((filteredSegs start).length -
          commonPrefixLen (filteredSegs start) (filteredSegs p)) ['.', '.'] ++
        (filteredSegs p).drop (commonPrefixLen (filteredSegs start) (filteredSegs p)) =
        [] then ['.']
    else joinSl (List.replicate ((filteredSegs start).length -
          commonPrefixLen (filteredSegs start) (filteredSegs p)) ['.', '.'] ++
        (filteredSegs p).drop
          (commonPrefixLen (filteredSegs start) (filteredSegs p))) := rfl

end Structure

section Roots

lemma isabs_cons_beq (c : Char) (l : List Char) : isabs (c :: l) = ('/' == c) := by
  simp [isabs, List.isPrefixOf]

lemma isabs_append (l m : List Char) (hl : l ≠ []) : isabs (l ++ m) = isabs l := by
  cases l with
  | nil => exact absurd rfl hl
  | cons c cs => rw [List.cons_append, isabs_cons_beq, isabs_cons_beq]

lemma lstrip_id (l : List Char) (h : isabs l = false) : lstripSlashes l = l := by
  cases l with
  | nil => rfl
  | cons c cs =>
    have hc : ¬ (c = '/') := by
      intro hcc
      subst hcc
      rw [isabs_slash] at h
      exact absurd h (by simp)
    unfold lstripSlashes
    rw [List.dropWhile_cons_of_neg (by simpa using hc)]

lemma lstrip_cons_slash (l : List Char) : lstripSlashes ('/' :: l) = lstripSlashes l := by
  unfold lstripSlashes
  rw [List.dropWhile_cons_of_pos (by simp)]

lemma lstrip_repl (k : Nat) (b : List Char) (hb : isabs b = false) :
    lstripSlashes (List.replicate k '/' ++ b) = b := by
  induction k with
  | zero => exact lstrip_id b hb
  | succ n ih => rw [List.replicate_succ, List.cons_append, lstrip_cons_slash, ih]

lemma lstrip_append (a b : List Char) (ha : lstripSlashes a ≠ []) :
    lstripSlashes (a ++ b) = lstripSlashes a ++ b := by
  induction a with
  | nil => exact absurd rfl ha
  | cons c cs ih =>
    by_cases hc : c = '/'
    · subst hc
      rw [lstrip_cons_slash] at ha
      rw [List.cons_append, lstrip_cons_slash, lstrip_cons_slash]
      exact ih ha
    · rw [List.cons_append]
      unfold lstripSlashes
      rw [List.dropWhile_cons_of_neg (by simpa using hc),
        List.dropWhile_cons_of_neg (by simpa using hc)]
      rfl

lemma lstrip_append_nil (a b : List Char) (ha : lstripSlashes a = []) :
    lstripSlashes (a ++ b) = lstripSlashes b := by
  induction a with
  | nil => rfl
  | cons c cs ih =>
    by_cases hc : c = '/'
    · subst hc
      rw [lstrip_cons_slash] at ha
      rw [List.cons_append, lstrip_cons_slash]
      exact ih ha
    · exfalso
      unfold lstripSlashes at ha
      rw [List.dropWhile_cons_of_neg (by simpa using hc)] at ha
      exact absurd ha (by simp)

lemma lstrip_not_abs (l : List Char) : isabs (lstripSlashes l) = false := by
  induction l with
  | nil => rfl
  | cons c cs ih =>
    by_cases hc : c = '/'
    · subst hc; rw [lstrip_cons_slash]; exact ih
    · unfold lstripSlashes
      rw [List.dropWhile_cons_of_neg (by simpa using hc)]
      rw [isabs_cons_beq]
      simpa using fun h => hc h.symm

lemma isPrefixOf_self (l : List Char) : l.isPrefixOf l = true :=
  List.isPrefixOf_iff_prefix.mpr ⟨[], List.append_nil l⟩

lemma isPrefixOf_append_self (l m : List Char) : l.isPrefixOf (l ++ m) = true :=
  List.isPrefixOf_iff_prefix.mpr ⟨m, rfl⟩

lemma joinSl_cons_ne_nil (s : List Char) (rest : List (List Char)) (hs : s ≠ []) :
    joinSl (s :: rest) ≠ [] := by
  cases rest with
  | nil => rw [joinSl_one]; exact hs
  | cons t ts => rw [joinSl_cons2]; simp

lemma joinSl_append (as bs : List (List Char)) (ha : as ≠ []) (hb : bs ≠ []) :
    joinSl (as ++ bs) = joinSl as ++ '/' :: joinSl bs := by
  induction as with
  | nil => exact absurd rfl ha
  | cons s rest ih =>
    cases rest with
    | nil =>
      cases bs with
      | nil => exact absurd rfl hb
      | cons b bs2 =>
        rw [List.cons_append, List.nil_append, joinSl_cons2, joinSl_one]
    | cons t ts =>
      have : (s :: t :: ts) ++ bs = s :: t :: (ts ++ bs) := rfl
      rw [this, joinSl_cons2, joinSl_cons2]
      have h2 : t :: (ts ++ bs) = (t :: ts) ++ bs := rfl
      rw [h2, ih (by simp)]
      simp

lemma joinSl_getLast_ne_slash (segs : List (List Char))
    (h : ∀ s ∈ segs, s ≠ [] ∧ '/' ∉ s) (hne : segs ≠ []) :
    (joinSl segs).getLast? ≠ some '/' := by
  induction segs with
  | nil => exact absurd rfl hne
  | cons s rest ih =>
    cases rest with
    | nil =>
      rw [joinSl_one]
      intro hc
      exact (h s (List.mem_cons_self s [])).2 (List.mem_of_mem_getLast? hc)
    | cons t ts =>
      rw [joinSl_cons2]
      have htne : joinSl (t :: ts) ≠ [] :=
        joinSl_cons_ne_nil t ts
          (h t (List.mem_cons_of_mem s (List.mem_cons_self t ts))).1
      rw [List.getLast?_append_of_ne_nil s (by simp),
        show ('/' :: joinSl (t :: ts)) = ['/'] ++ joinSl (t :: ts) from rfl,
        List.getLast?_append_of_ne_nil ['/'] htne]
      exact ih (fun x hx => h x (List.mem_cons_of_mem s hx)) (by simp)

lemma repl_slash_ne_nil (k : Nat) (hk : k = 1 ∨ k = 2) :
    List.replicate k '/' ≠ ([] : List Char) := by
  rcases hk with h | h <;> subst h <;> simp

lemma getLast_repl_slash (k : Nat) (hk : k = 1 ∨ k = 2) :
    (List.replicate k '/' : List Char).getLast? = some '/' := by
  rcases hk with h | h <;> subst h <;> rfl

lemma posix_join_slashroot (k : Nat) (c : List Char) (hk : k = 1 ∨ k = 2)
    (hc : isabs c = false) :
    posix_join (List.replicate k '/') c = List.replicate k '/' ++ c := by
  unfold posix_join
  rw [if_neg (by simp [hc]), if_pos (Or.inr (getLast_repl_slash k hk))]

lemma posix_join_root_ne (k : Nat) (rsegs : List (List Char)) (c : List Char)
    (hk : k = 1 ∨ k = 2) (hrne : rsegs ≠ [])
    (hr : ∀ s ∈ rsegs, s ≠ [] ∧ '/' ∉ s) (hc : isabs c = false) :
    posix_join (List.replicate k '/' ++ joinSl rsegs) c =
      (List.replicate k '/' ++ joinSl rsegs) ++ '/' :: c := by
  have hjne : joinSl rsegs ≠ [] := by
    cases hsegs : rsegs with
    | nil => exact absurd hsegs hrne
    | cons s rest =>
      exact joinSl_cons_ne_nil s rest
        (hr s (by rw [hsegs]; exact List.mem_cons_self s rest)).1
  unfold posix_join
  rw [if_neg (by simp [hc]), if_neg]
  intro hcon
  rcases hcon with h | h
  · exact repl_slash_ne_nil k hk (List.append_eq_nil.mp h).1
  · rw [List.getLast?_append_of_ne_nil _ hjne] at h
    exact joinSl_getLast_ne_slash rsegs hr hrne h

lemma normpath_trailing_slash (p : List Char) (hp : isabs p = true)
    (hsc : slashCount (p ++ ['/']) = slashCount p) :
    normpath (p ++ ['/']) = normpath p := by
  have hpne : p ≠ [] := by
    intro h
    rw [h] at hp
    exact absurd hp (by simp [isabs, List.isPrefixOf])
  have hp2 : isabs (p ++ ['/']) = true := by rw [isabs_append p ['/'] hpne]; exact hp
  rw [normpath_abs_eq p hp, normpath_abs_eq _ hp2, hsc]
  have hsplit : splitSl (p ++ ['/']) = splitSl p ++ [[]] := by
    have h := splitSl_append_slash p []
    rw [splitSl_nil] at h
    exact h
  rw [hsplit, norm_acc_append, norm_acc_skip _ _ _ _ (Or.inl rfl), norm_acc_base]

lemma norm_out_good (p : List Char) :
    ∀ s ∈ (norm_acc true [] (splitSl p)).reverse, goodSeg s ∧ '/' ∉ s := by
  intro s hs
  rw [List.mem_reverse] at hs
  refine ⟨norm_acc_good_inv (splitSl p) [] (by simp) s hs, ?_⟩
  rcases norm_acc_mem true (splitSl p) [] s hs with h | h
  · simp at h
  · exact splitSl_no_slash p s h

lemma slashCount_cases (p : List Char) (hp : isabs p = true) :
    slashCount p = 1 ∨ slashCount p = 2 := by
  unfold slashCount
  rw [if_pos hp]
  split
  · exact Or.inr rfl
  · exact Or.inl rfl

lemma wf_structure (root : List Char) (hw : wfRoot root) :
    ∃ k rsegs, (k = 1 ∨ k = 2) ∧
      root = List.replicate k '/' ++ joinSl rsegs ∧
      (∀ s ∈ rsegs, goodSeg s ∧ '/' ∉ s) := by
  refine ⟨slashCount root, (norm_acc true [] (splitSl root)).reverse,
    slashCount_cases root hw.1, ?_, norm_out_good root⟩
  conv_lhs => rw [← hw.2]
  exact normpath_abs_eq root hw.1

end Roots

section Guard

lemma clean_path_eq (path root : List Char) : clean_path path root =
    lstripSlashes
      (if wsLit.isPrefixOf
          (if (lstripSlashes root).isPrefixOf (lstripSlashes path) then
            (lstripSlashes path).drop (lstripSlashes root).length
          else lstripSlashes path) then
        (if (lstripSlashes root).isPrefixOf (lstripSlashes path) then
            (lstripSlashes path).drop (lstripSlashes root).length
          else lstripSlashes path).drop 9
      else
        (if (lstripSlashes root).isPrefixOf (lstripSlashes path) then
            (lstripSlashes path).drop (lstripSlashes root).length
          else lstripSlashes path)) := rfl

lemma clean_path_lstrip_nil (path root : List Char) (h : lstripSlashes path = []) :
    clean_path path root = [] := by
  rw [clean_path_eq, h]
  have hq : (if (lstripSlashes root).isPrefixOf ([] : List Char) then
      List.drop (lstripSlashes root).length ([] : List Char) else ([] : List Char)) = [] := by
    split <;> simp
  rw [hq]
  rfl

lemma clean_path_root_self (root : List Char) : clean_path root root = [] := by
  rw [clean_path_eq, if_pos (isPrefixOf_self _), List.drop_length]
  rfl

lemma clean_path_root_slash (root : List Char) : clean_path (root ++ ['/']) root = [] := by
  by_cases hws : lstripSlashes root = []
  · refine clean_path_lstrip_nil _ _ ?_
    rw [lstrip_append_nil root ['/'] hws]
    rfl
  · rw [clean_path_eq, lstrip_append root ['/'] hws,
      if_pos (isPrefixOf_append_self _ _), List.drop_left]
    rfl

lemma enforce_eq (path ws : List Char) : enforce_workspace_path path ws =
    if isabs path ∧ ¬ ws.isPrefixOf path then
      .error .absolute_path_outside_workspace
    else if ¬ ws.isPrefixOf (normpath (posix_join ws (clean_path path ws))) then
      .error .resolved_path_outside_workspace
    else if relpath (normpath (posix_join ws (clean_path path ws))) ws = ['.'] then
      .ok []
    else .ok (relpath (normpath (posix_join ws (clean_path path ws))) ws) := rfl

lemma norm_join_empty (root : List Char) (hw : wfRoot root) :
    normpath (posix_join root []) = root := by
  obtain ⟨k, rsegs, hk, hroot, hr⟩ := wf_structure root hw
  by_cases hrne : rsegs = []
  · subst hrne
    rw [joinSl_nil, List.append_nil] at hroot
    subst hroot
    rw [posix_join_slashroot k [] hk rfl, List.append_nil]
    exact hw.2
  · subst hroot
    rw [posix_join_root_ne k rsegs [] hk hrne
      (fun s hs => ⟨(hr s hs).1.1, (hr s hs).2⟩) rfl]
    have habs : isabs (List.replicate k '/' ++ joinSl rsegs) = true := by
      rcases hk with h | h <;> subst h <;> exact isabs_slash _
    have hjne : joinSl rsegs ≠ [] := by
      cases hsegs : rsegs with
      | nil => exact absurd hsegs hrne
      | cons s rest =>
        exact joinSl_cons_ne_nil s rest
          (hr s (by rw [hsegs]; exact List.mem_cons_self s rest)).1.1
    have hb : isabs (joinSl rsegs) = false :=
      isabs_joinSl rsegs (fun s hs => ⟨(hr s hs).1.1, (hr s hs).2⟩)
    have hsc : slashCount ((List.replicate k '/' ++ joinSl rsegs) ++ ['/']) =
        slashCount (List.replicate k '/' ++ joinSl rsegs) := by
      rw [List.append_assoc, slashCount_repl k _ hk (by rw [isabs_append _ _ hjne]; exact hb),
        slashCount_repl k _ hk hb]
    have := normpath_trailing_slash (List.replicate k '/' ++ joinSl rsegs) habs hsc
    rw [show ('/' :: ([] : List Char)) = ['/'] from rfl, this]
    exact hw.2

lemma relpath_self_structured (k : Nat) (rsegs : List (List Char)) (hk : k = 1 ∨ k = 2)
    (hr : ∀ s ∈ rsegs, goodSeg s ∧ '/' ∉ s) :
    relpath (List.replicate k '/' ++ joinSl rsegs)
      (List.replicate k '/' ++ joinSl rsegs) = ['.'] := by
  rw [relpath_eq, filteredSegs_structure k rsegs hk hr]
  have hc : commonPrefixLen rsegs rsegs = rsegs.length := by
    have h := commonPrefixLen_append rsegs []
    rwa [List.append_nil] at h
  rw [hc, Nat.sub_self, List.replicate_zero, List.nil_append, List.drop_length, if_pos rfl]

lemma relpath_root_self (root : List Char) (hw : wfRoot root) :
    relpath root root = ['.'] := by
  obtain ⟨k, rsegs, hk, hroot, hr⟩ := wf_structure root hw
  subst hroot
  exact relpath_self_structured k rsegs hk hr

lemma enforce_of_clean_nil (path root : List Char) (hw : wfRoot root)
    (hcl : clean_path path root = [])
    (hfast : ¬ (isabs path = true ∧ ¬ root.isPrefixOf path = true)) :
    enforce_workspace_path path root = .ok [] := by
  rw [enforce_eq, if_neg hfast, hcl, norm_join_empty root hw,
    if_neg (by simp [isPrefixOf_self]), relpath_root_self root hw, if_pos rfl]

/-- C6 amended: for every canonical absolute root (the data-model invariant
plus normpath-fixedness), the empty input, the root itself, and the root with
a trailing slash all normalize to the empty relative path. -/
theorem C6_root_self_amended (root : List Char) (hw : wfRoot root) :
    enforce_workspace_path [] root = .ok [] ∧
    enforce_workspace_path root root = .ok [] ∧
    enforce_workspace_path (root ++ ['/']) root = .ok [] := by
  refine ⟨?_, ?_, ?_⟩
  · exact enforce_of_clean_nil [] root hw (clean_path_lstrip_nil [] root rfl)
      (fun hcon => absurd hcon.1 (by simp [isabs, List.isPrefixOf]))
  · exact enforce_of_clean_nil root root hw (clean_path_root_self root)
      (fun hcon => hcon.2 (isPrefixOf_self root))
  · exact enforce_of_clean_nil (root ++ ['/']) root hw (clean_path_root_slash root)
      (fun hcon => hcon.2 (isPrefixOf_append_self root ['/']))

/-- Witness for the amended C6 at the default workspace root. -/
theorem C6_root_self_amended_witness :
    enforce_workspace_path [] (r"/workspace".data) = .ok [] ∧
    enforce_workspace_path (r"/workspace".data) (r"/workspace".data) = .ok [] :=
  ⟨(C6_root_self_amended (r"/workspace".data) ⟨rfl, by decide⟩).1,
   (C6_root_self_amended (r"/workspace".data) ⟨rfl, by decide⟩).2.1⟩

lemma clean_not_abs (path root : List Char) : isabs (clean_path path root) = false := by
  rw [clean_path_eq]
  exact lstrip_not_abs _

/-- C5 amended: the guard agrees with the normalizer on every relative input
whose normalized form consists only of plain segments: no dot-dot segments
(as the claim states) and also no single-dot or empty segments (which the
guard resolves away while the normalizer keeps them), over canonical
absolute roots. -/
theorem C5_agreement_amended (p root : List Char) (hw : wfRoot root)
    (hp : isabs p = false)
    (hc : ∀ s ∈ splitSl (clean_path p root), goodSeg s) :
    enforce_workspace_path p root = .ok (clean_path p root) := by
  obtain ⟨k, rsegs, hk, hroot, hr⟩ := wf_structure root hw
  subst hroot
  set c := clean_path p (List.replicate k '/' ++ joinSl rsegs) with hcdef
  have hcsegs : ∀ s ∈ splitSl c, goodSeg s ∧ '/' ∉ s :=
    fun s hs => ⟨hc s hs, splitSl_no_slash _ s hs⟩
  have hcabs : isabs c = false := by rw [hcdef]; exact clean_not_abs p _
  have hcdot : c ≠ ['.'] := by
    intro h
    have h2 : splitSl c = [['.']] := by
      rw [h]
      exact splitSl_noslash_id ['.'] (by decide)
    have h3 := hcsegs ['.'] (by rw [h2]; exact List.mem_cons_self _ _)
    exact h3.1.2.1 rfl
  have hfast : ¬ (isabs p = true ∧ ¬ (List.replicate k '/' ++
      joinSl rsegs).isPrefixOf p = true) :=
    fun hcon => absurd hcon.1 (by simp [hp])
  rw [enforce_eq, if_neg hfast, ← hcdef]
  by_cases hrne : rsegs = []
  · subst hrne
    rw [joinSl_nil, List.append_nil]
    rw [posix_join_slashroot k c hk hcabs]
    have hfix := normpath_fix k (splitSl c) hk hcsegs
    rw [join_split c] at hfix
    rw [hfix, if_neg (by simp [isPrefixOf_append_self])]
    have hfs : filteredSegs (List.replicate k '/' ++ c) = splitSl c := by
      have h2 := filteredSegs_structure k (splitSl c) hk hcsegs
      rwa [join_split c] at h2
    have hfsr : filteredSegs (List.replicate k '/') = [] := by
      have h2 := filteredSegs_structure k [] hk (by intro s hs; simp at hs)
      rwa [joinSl_nil, List.append_nil] at h2
    have hrel : relpath (List.replicate k '/' ++ c) (List.replicate k '/') = c := by
      rw [relpath_eq, hfs, hfsr]
      simp only [List.length_nil, Nat.zero_sub, List.replicate_zero, List.nil_append,
        List.drop_zero, commonPrefixLen]
      rw [if_neg (splitSl_ne_nil c), join_split c]
    rw [hrel, if_neg hcdot]
  · rw [posix_join_root_ne k rsegs c hk hrne
      (fun s hs => ⟨(hr s hs).1.1, (hr s hs).2⟩) hcabs]
    have hjoin : (List.replicate k '/' ++ joinSl rsegs) ++ '/' :: c =
        List.replicate k '/' ++ joinSl (rsegs ++ splitSl c) := by
      rw [joinSl_append rsegs (splitSl c) hrne (splitSl_ne_nil c), join_split c,
        List.append_assoc]
    have hgood2 : ∀ s ∈ rsegs ++ splitSl c, goodSeg s ∧ '/' ∉ s := by
      intro s hs
      rcases List.mem_append.mp hs with h | h
      · exact hr s h
      · exact hcsegs s h
    have hn : normpath ((List.replicate k '/' ++ joinSl rsegs) ++ '/' :: c) =
        (List.replicate k '/' ++ joinSl rsegs) ++ '/' :: c := by
      rw [hjoin]
      exact normpath_fix k _ hk hgood2
    rw [hn, if_neg (by simp [isPrefixOf_append_self])]
    have hrel : relpath ((List.replicate k '/' ++ joinSl rsegs) ++ '/' :: c)
        (List.replicate k '/' ++ joinSl rsegs) = c := by
      rw [hjoin, relpath_eq, filteredSegs_structure k _ hk hgood2,
        filteredSegs_structure k rsegs hk hr, commonPrefixLen_append rsegs (splitSl c),
        Nat.sub_self, List.replicate_zero, List.nil_append, List.drop_left,
        if_neg (splitSl_ne_nil c), join_split c]
    rw [hrel, if_neg hcdot]

/-- Witness for the amended C5 at a plain relative path. -/
theorem C5_agreement_amended_witness :
    enforce_workspace_path (r"foo/bar.txt".data) (r"/workspace".data) =
      .ok (r"foo/bar.txt".data) :=
  (C5_agreement_amended (r"foo/bar.txt".data) (r"/workspace".data)
    ⟨rfl, by decide⟩ rfl (by decide)).trans (by rfl)

end Guard

section Idem

lemma self_ne_append (ls x : List Char) (hx : x ≠ []) : ls ≠ ls ++ x := by
  intro h
  exact hx (by simpa using congrArg List.length h)

lemma prefix_tri (a b J : List Char) (h1 : a <+: J) (h2 : b <+: J) :
    a = b ∨ (∃ d, d ≠ [] ∧ b = a ++ d) ∨ (∃ d, d ≠ [] ∧ a = b ++ d) := by
  rcases List.prefix_or_prefix_of_prefix h1 h2 with h | h
  · obtain ⟨d, hd⟩ := h
    by_cases hdn : d = []
    · subst hdn
      rw [List.append_nil] at hd
      exact Or.inl hd
    · exact Or.inr (Or.inl ⟨d, hdn, hd.symm⟩)
  · obtain ⟨d, hd⟩ := h
    by_cases hdn : d = []
    · subst hdn
      rw [List.append_nil] at hd
      exact Or.inl hd.symm
    · exact Or.inr (Or.inr ⟨d, hdn, hd.symm⟩)

/-- How one slash-joined segment list can be a string prefix of another:
either the first list is empty, or it is a segment-list prefix of the second,
or everything but its last segment matches and its last segment is strictly
extended by the corresponding segment of the second list. -/
lemma joinSl_prefix_cases (as : List (List Char)) :
    ∀ bs : List (List Char),
    (∀ s ∈ as, s ≠ [] ∧ '/' ∉ s) → (∀ s ∈ bs, s ≠ [] ∧ '/' ∉ s) →
    joinSl as <+: joinSl bs →
    as = [] ∨ (∃ tl, as ++ tl = bs) ∨
      (∃ dl lastseg x tl, as = dl ++ [lastseg] ∧ x ≠ [] ∧
        bs = dl ++ (lastseg ++ x) :: tl) := by
  induction as with
  | nil => intro bs _ _ _; exact Or.inl rfl
  | cons a as2 ih =>
    intro bs ha hb hpre
    have hane : a ≠ [] := (ha a (List.mem_cons_self a as2)).1
    cases bs with
    | nil =>
      exfalso
      rw [joinSl_nil] at hpre
      exact joinSl_cons_ne_nil a as2 hane (List.prefix_nil.mp hpre)
    | cons b bs2 =>
      cases as2 with
      | nil =>
        rw [joinSl_one] at hpre
        cases bs2 with
        | nil =>
          rw [joinSl_one] at hpre
          rcases prefix_tri a b b hpre (List.prefix_refl b) with heq | ⟨d, hdn, hd⟩ |
              ⟨d, hdn, hd⟩
          · subst heq
            exact Or.inr (Or.inl ⟨[], rfl⟩)
          · exact Or.inr (Or.inr ⟨[], a, d, [], rfl, hdn, by rw [hd]; rfl⟩)
          · exfalso
            rw [hd] at hpre
            have h2 : (b ++ d) <+: (b ++ []) := by rw [List.append_nil]; exact hpre
            exact hdn (List.prefix_nil.mp ((List.prefix_append_right_inj b).mp h2))
        | cons t ts =>
          rw [joinSl_cons2] at hpre
          have hbJ : b <+: b ++ '/' :: joinSl (t :: ts) := ⟨_, rfl⟩
          rcases prefix_tri a b _ hpre hbJ with heq | ⟨d, hdn, hd⟩ | ⟨d, hdn, hd⟩
          · subst heq
            exact Or.inr (Or.inl ⟨t :: ts, rfl⟩)
          · exact Or.inr (Or.inr ⟨[], a, d, t :: ts, rfl, hdn, by rw [hd]; rfl⟩)
          · exfalso
            rw [hd] at hpre
            have h2 := (List.prefix_append_right_inj b).mp hpre
            cases d with
            | nil => exact hdn rfl
            | cons e d2 =>
              have he := (List.cons_prefix_cons.mp h2).1
              have hmem : '/' ∈ a := by
                rw [hd, ← he]
                exact List.mem_append_right b (List.mem_cons_self e d2)
              exact (ha a (List.mem_cons_self a [])).2 hmem
      | cons a2 as3 =>
        rw [joinSl_cons2] at hpre
        have haJ : a <+: joinSl (b :: bs2) :=
          List.IsPrefix.trans ⟨'/' :: joinSl (a2 :: as3), rfl⟩ hpre
        cases bs2 with
        | nil =>
          exfalso
          rw [joinSl_one] at hpre
          obtain ⟨d, hd⟩ := hpre
          have hmem : '/' ∈ b := by
            rw [← hd]
            refine List.mem_append_left _ ?_
            exact List.mem_append_right a (List.mem_cons_self '/' (joinSl (a2 :: as3)))
          exact (hb b (List.mem_cons_self b [])).2 hmem
        | cons t ts =>
          rw [joinSl_cons2] at hpre haJ
          have hbJ : b <+: b ++ '/' :: joinSl (t :: ts) := ⟨_, rfl⟩
          rcases prefix_tri a b _ haJ hbJ with heq | ⟨d, hdn, hd⟩ | ⟨d, hdn, hd⟩
          · subst heq
            have hcan := (List.prefix_append_right_inj a).mp hpre
            have hcan2 := (List.cons_prefix_cons.mp hcan).2
            rcases ih (t :: ts) (fun s hs => ha s (List.mem_cons_of_mem a hs))
                (fun s hs => hb s (List.mem_cons_of_mem a hs)) hcan2 with
              h0 | ⟨tl, htl⟩ | ⟨dl, ls, x, tl, he1, he2, he3⟩
            · exact absurd h0 (by simp)
            · refine Or.inr (Or.inl ⟨tl, ?_⟩)
              rw [List.cons_append, htl]
            · refine Or.inr (Or.inr ⟨a :: dl, ls, x, tl, ?_, he2, ?_⟩)
              · rw [he1]; rfl
              · rw [he3]; rfl
          · exfalso
            rw [hd, List.append_assoc] at hpre
            have hcan := (List.prefix_append_right_inj a).mp hpre
            cases d with
            | nil => exact hdn rfl
            | cons e d2 =>
              have he := (List.cons_prefix_cons.mp hcan).1
              have hmem : '/' ∈ b := by
                rw [hd, he]
                exact List.mem_append_right a (List.mem_cons_self e d2)
              exact (hb b (List.mem_cons_self b (t :: ts))).2 hmem
          · exfalso
            rw [hd, List.append_assoc] at hpre
            have hcan := (List.prefix_append_right_inj b).mp hpre
            cases d with
            | nil => exact hdn rfl
            | cons e d2 =>
              rw [List.cons_append] at hcan
              have he := (List.cons_prefix_cons.mp hcan).1
              have hmem : '/' ∈ a := by
                rw [hd, ← he]
                exact List.mem_append_right b (List.mem_cons_self e d2)
              exact (ha a (List.mem_cons_self a (a2 :: as3))).2 hmem

/-- Resolving one parent segment: the double dot cancels the last segment
before it. -/
lemma normpath_parent (k : Nat) (dl : List (List Char)) (lastseg : List Char)
    (rest : List (List Char)) (hk : k = 1 ∨ k = 2)
    (hdl : ∀ s ∈ dl ++ [lastseg], goodSeg s ∧ '/' ∉ s)
    (hrest : ∀ s ∈ rest, goodSeg s ∧ '/' ∉ s) :
    normpath (List.replicate k '/' ++
        joinSl ((dl ++ [lastseg]) ++ ['.', '.'] :: rest)) =
      List.replicate k '/' ++ joinSl (dl ++ rest) := by
  have hsegs : ∀ s ∈ (dl ++ [lastseg]) ++ ['.', '.'] :: rest, s ≠ [] ∧ '/' ∉ s := by
    intro s hs
    rcases List.mem_append.mp hs with h | h
    · exact ⟨(hdl s h).1.1, (hdl s h).2⟩
    · rcases List.mem_cons.mp h with h | h
      · subst h
        exact ⟨by simp, by decide⟩
      · exact ⟨(hrest s h).1.1, (hrest s h).2⟩
  have hsegsne : (dl ++ [lastseg]) ++ ['.', '.'] :: rest ≠ [] := by simp
  have hb : isabs (joinSl ((dl ++ [lastseg]) ++ ['.', '.'] :: rest)) = false :=
    isabs_joinSl _ hsegs
  have habs : isabs (List.replicate k '/' ++
      joinSl ((dl ++ [lastseg]) ++ ['.', '.'] :: rest)) = true := by
    rcases hk with h | h <;> subst h <;> exact isabs_slash _
  rw [normpath_abs_eq _ habs, slashCount_repl k _ hk hb, splitSl_replicate_slash,
    split_join _ hsegsne (fun s hs => (hsegs s hs).2), norm_acc_skip_empties,
    norm_acc_append, norm_acc_good true (dl ++ [lastseg])
      (fun s hs => (hdl s hs).1) []]
  have hlast : lastseg ≠ ['.', '.'] :=
    (hdl lastseg (List.mem_append_right dl (List.mem_cons_self lastseg []))).1.2.2
  rw [List.append_nil, List.reverse_append, List.reverse_singleton,
    List.singleton_append]
  rw [norm_acc_pop true (lastseg :: dl.reverse) ['.', '.'] rest (by simp)
    (by simp [hlast])]
  rw [List.tail_cons, norm_acc_good true rest (fun s hs => (hrest s hs).1) dl.reverse,
    List.reverse_append, List.reverse_reverse, List.reverse_reverse]

lemma clean_path_id (r root : List Char) (hrabs : isabs r = false)
    (h1 : (lstripSlashes root).isPrefixOf r = false)
    (h2 : wsLit.isPrefixOf r = false) :
    clean_path r root = r := by
  rw [clean_path_eq, lstrip_id r hrabs,
    if_neg (show ¬ ((lstripSlashes root).isPrefixOf r = true) by rw [h1]; simp),
    if_neg (show ¬ (wsLit.isPrefixOf r = true) by rw [h2]; simp)]
  exact lstrip_id r hrabs

lemma normpath_struct (q : List Char) (k : Nat) (habs : isabs q = true)
    (hsc : slashCount q = k) :
    ∃ nsegs, normpath q = List.replicate k '/' ++ joinSl nsegs ∧
      ∀ s ∈ nsegs, goodSeg s ∧ '/' ∉ s := by
  refine ⟨(norm_acc true [] (splitSl q)).reverse, ?_, norm_out_good q⟩
  rw [normpath_abs_eq q habs, hsc]

lemma enforce_second (k : Nat) (rsegs nsegs : List (List Char)) (r : List Char)
    (hk : k = 1 ∨ k = 2) (hrne : rsegs ≠ [])
    (hr : ∀ s ∈ rsegs, goodSeg s ∧ '/' ∉ s)
    (h1 : (lstripSlashes (List.replicate k '/' ++ joinSl rsegs)).isPrefixOf r = false)
    (h2 : wsLit.isPrefixOf r = false) (hrabs : isabs r = false)
    (hpre : (List.replicate k '/' ++ joinSl rsegs).isPrefixOf
      (List.replicate k '/' ++ joinSl nsegs) = true)
    (hkey : normpath ((List.replicate k '/' ++ joinSl rsegs) ++ '/' :: r) =
      List.replicate k '/' ++ joinSl nsegs)
    (hrdef : relpath (List.replicate k '/' ++ joinSl nsegs)
      (List.replicate k '/' ++ joinSl rsegs) = r)
    (hdotr : r ≠ ['.']) :
    enforce_workspace_path r (List.replicate k '/' ++ joinSl rsegs) = .ok r := by
  have hfast2 : ¬ (isabs r = true ∧
      ¬ (List.replicate k '/' ++ joinSl rsegs).isPrefixOf r = true) :=
    fun hcon => absurd hcon.1 (by simp [hrabs])
  rw [enforce_eq, if_neg hfast2, clean_path_id r _ hrabs h1 h2,
    posix_join_root_ne k rsegs r hk hrne
      (fun s hs => ⟨(hr s hs).1.1, (hr s hs).2⟩) hrabs,
    hkey, if_neg (by simp [hpre]), hrdef, if_neg hdotr]

/-- C4 amended: idempotence of the guard holds over canonical absolute roots
for every successful input whose returned path begins neither with the
root's stripped name nor with the literal legacy prefix; the counterexample
shows that returned paths starting with those prefixes are rewritten again
by the prefix stripping of clean_path on the second pass. -/
theorem C4_idempotence_amended (p root r : List Char) (hw : wfRoot root)
    (henf : enforce_workspace_path p root = .ok r)
    (h1 : (lstripSlashes root).isPrefixOf r = false)
    (h2 : wsLit.isPrefixOf r = false) :
    enforce_workspace_path r root = .ok r := by
  obtain ⟨k, rsegs, hk, hroot, hr⟩ := wf_structure root hw
  subst hroot
  have hrweak : ∀ s ∈ rsegs, s ≠ [] ∧ '/' ∉ s :=
    fun s hs => ⟨(hr s hs).1.1, (hr s hs).2⟩
  have hjabs : isabs (joinSl rsegs) = false := isabs_joinSl rsegs hrweak
  have hlst : lstripSlashes (List.replicate k '/' ++ joinSl rsegs) = joinSl rsegs :=
    lstrip_repl k _ hjabs
  have hrne : rsegs ≠ [] := by
    intro h
    rw [hlst, h, joinSl_nil] at h1
    have htr : (List.isPrefixOf ([] : List Char) r) = true := by cases r <;> rfl
    rw [htr] at h1
    exact absurd h1 (by simp)
  have hjne : joinSl rsegs ≠ [] := by
    cases hsegs : rsegs with
    | nil => exact absurd hsegs hrne
    | cons s rest =>
      exact joinSl_cons_ne_nil s rest
        (hrweak s (by rw [hsegs]; exact List.mem_cons_self s rest)).1
  rw [enforce_eq] at henf
  split at henf
  · exact Except.noConfusion henf
  split at henf
  · exact Except.noConfusion henf
  rename_i hpre1
  split at henf
  · have hr0 : r = [] := by
      have h := henf
      rw [Except.ok.injEq] at h
      exact h.symm
    subst hr0
    exact enforce_of_clean_nil [] _ hw (clean_path_lstrip_nil [] _ rfl)
      (fun hcon => absurd hcon.1 (by simp [isabs, List.isPrefixOf]))
  rename_i hdot
  have hrdef2 : relpath (normpath (posix_join (List.replicate k '/' ++ joinSl rsegs)
      (clean_path p (List.replicate k '/' ++ joinSl rsegs))))
      (List.replicate k '/' ++ joinSl rsegs) = r := by
    have h := henf
    rw [Except.ok.injEq] at h
    exact h
  have hpre : (List.replicate k '/' ++ joinSl rsegs).isPrefixOf
      (normpath (posix_join (List.replicate k '/' ++ joinSl rsegs)
        (clean_path p (List.replicate k '/' ++ joinSl rsegs)))) = true :=
    not_not.mp hpre1
  have hcabs : isabs (clean_path p (List.replicate k '/' ++ joinSl rsegs)) = false :=
    clean_not_abs p _
  have hfull : posix_join (List.replicate k '/' ++ joinSl rsegs)
      (clean_path p (List.replicate k '/' ++ joinSl rsegs)) =
      (List.replicate k '/' ++ joinSl rsegs) ++
        '/' :: clean_path p (List.replicate k '/' ++ joinSl rsegs) :=
    posix_join_root_ne k rsegs _ hk hrne hrweak hcabs
  have habsfull : isabs ((List.replicate k '/' ++ joinSl rsegs) ++
      '/' :: clean_path p (List.replicate k '/' ++ joinSl rsegs)) = true := by
    rcases hk with h | h <;> subst h <;> exact isabs_slash _
  have hscfull : slashCount ((List.replicate k '/' ++ joinSl rsegs) ++
      '/' :: clean_path p (List.replicate k '/' ++ joinSl rsegs)) = k := by
    rw [List.append_assoc]
    exact slashCount_repl k _ hk (by rw [isabs_append _ _ hjne]; exact hjabs)
  obtain ⟨nsegs, hN, hngood⟩ := normpath_struct _ k habsfull hscfull
  have hnweak : ∀ s ∈ nsegs, s ≠ [] ∧ '/' ∉ s :=
    fun s hs => ⟨(hngood s hs).1.1, (hngood s hs).2⟩
  rw [hfull, hN] at hpre hrdef2 hdot
  have hpre2 : joinSl rsegs <+: joinSl nsegs :=
    (List.prefix_append_right_inj (List.replicate k '/')).mp
      (List.isPrefixOf_iff_prefix.mp hpre)
  have hfsN : filteredSegs (List.replicate k '/' ++ joinSl nsegs) = nsegs :=
    filteredSegs_structure k nsegs hk hngood
  have hfsR : filteredSegs (List.replicate k '/' ++ joinSl rsegs) = rsegs :=
    filteredSegs_structure k rsegs hk hr
  rcases joinSl_prefix_cases rsegs nsegs hrweak hnweak hpre2 with
    h0 | ⟨tl, htl⟩ | ⟨dl, ls, x, tl, he1, hx, he3⟩
  · exact absurd h0 hrne
  · have hrel : relpath (List.replicate k '/' ++ joinSl nsegs)
        (List.replicate k '/' ++ joinSl rsegs) =
        (if tl = [] then ['.'] else joinSl tl) := by
      rw [relpath_eq, hfsN, hfsR, ← htl, commonPrefixLen_append, Nat.sub_self,
        List.replicate_zero, List.nil_append, List.drop_left]
    have htlne : tl ≠ [] := by
      intro h
      rw [hrel, if_pos h] at hdot
      exact hdot rfl
    have hreq : r = joinSl tl := by rw [← hrdef2, hrel, if_neg htlne]
    have hgood2 : ∀ s ∈ tl, goodSeg s ∧ '/' ∉ s := fun s hs =>
      hngood s (by rw [← htl]; exact List.mem_append_right rsegs hs)
    have hrabs : isabs r = false := by
      rw [hreq]
      exact isabs_joinSl tl (fun s hs => ⟨(hgood2 s hs).1.1, (hgood2 s hs).2⟩)
    have hkey : normpath ((List.replicate k '/' ++ joinSl rsegs) ++ '/' :: r) =
        List.replicate k '/' ++ joinSl nsegs := by
      rw [hreq]
      have hassm : (List.replicate k '/' ++ joinSl rsegs) ++ '/' :: joinSl tl =
          List.replicate k '/' ++ joinSl (rsegs ++ tl) := by
        rw [joinSl_append rsegs tl hrne htlne, List.append_assoc]
      rw [hassm, htl]
      exact normpath_fix k nsegs hk hngood
    have hdotr : r ≠ ['.'] := fun h => hdot (hrdef2.trans h)
    exact enforce_second k rsegs nsegs r hk hrne hr h1 h2 hrabs hpre hkey hrdef2 hdotr
  · have hcp : commonPrefixLen rsegs nsegs = dl.length := by
      rw [he1, he3]
      exact commonPrefixLen_ext dl ls (ls ++ x) tl (self_ne_append ls x hx)
    have hlen : rsegs.length - dl.length = 1 := by rw [he1]; simp
    have hdrop : nsegs.drop dl.length = (ls ++ x) :: tl := by
      rw [he3]
      exact List.drop_left dl _
    have hrel : relpath (List.replicate k '/' ++ joinSl nsegs)
        (List.replicate k '/' ++ joinSl rsegs) =
        joinSl (['.', '.'] :: (ls ++ x) :: tl) := by
      rw [relpath_eq, hfsN, hfsR, hcp, hlen, hdrop, List.replicate_one,
        if_neg (by simp)]
      rfl
    have hreq : r = joinSl (['.', '.'] :: (ls ++ x) :: tl) := by
      rw [← hrdef2, hrel]
    have hsegsB : ∀ s ∈ ['.', '.'] :: (ls ++ x) :: tl, s ≠ [] ∧ '/' ∉ s := by
      intro s hs
      rcases List.mem_cons.mp hs with h | h
      · subst h
        exact ⟨by simp, by decide⟩
      · have hmem : s ∈ nsegs := by rw [he3]; exact List.mem_append_right dl h
        exact ⟨(hngood s hmem).1.1, (hngood s hmem).2⟩
    have hrabs : isabs r = false := by
      rw [hreq]
      exact isabs_joinSl _ hsegsB
    have hrestB : ∀ s ∈ (ls ++ x) :: tl, goodSeg s ∧ '/' ∉ s := fun s hs =>
      hngood s (by rw [he3]; exact List.mem_append_right dl hs)
    have hkey : normpath ((List.replicate k '/' ++ joinSl rsegs) ++ '/' :: r) =
        List.replicate k '/' ++ joinSl nsegs := by
      rw [hreq]
      have hassm : (List.replicate k '/' ++ joinSl rsegs) ++
          '/' :: joinSl (['.', '.'] :: (ls ++ x) :: tl) =
          List.replicate k '/' ++
            joinSl (rsegs ++ ['.', '.'] :: (ls ++ x) :: tl) := by
        rw [joinSl_append rsegs _ hrne (by simp), List.append_assoc]
      rw [hassm, he1, normpath_parent k dl ls ((ls ++ x) :: tl) hk
        (by rw [← he1]; exact hr) hrestB, ← he3]
    have hdotr : r ≠ ['.'] := fun h => hdot (hrdef2.trans h)
    exact enforce_second k rsegs nsegs r hk hrne hr h1 h2 hrabs hpre hkey hrdef2 hdotr

/-- Witness for the amended C4: a plain successful path maps to itself and
feeding it back through the guard leaves it unchanged. -/
theorem C4_idempotence_amended_witness :
    enforce_workspace_path (r"a/b.txt".data) (r"/workspace".data) =
      .ok (r"a/b.txt".data) :=
  C4_idempotence_amended (r"a/b.txt".data) (r"/workspace".data) (r"a/b.txt".data)
    ⟨rfl, by decide⟩ (by rfl) (by decide) (by decide)

end Idem

end FilesUtils
